import Mathlib

/-!
Verification of the pseudo-Hilbert curve generator (src/main.c).

The C program stores coordinates as `double` (`space_pos_t`); the spec treats
precision loss as an accepted limitation and states the geometric properties
"within floating-point tolerance".  We therefore embed coordinates as exact
rationals (`ℚ`): every arithmetic operation of the source (subtract, negate,
add, multiply by a constant) is carried over literally, and the claims are
settled in exact arithmetic.

In-place mutation of a `struct space_vec2 *arr` of length `len` is modelled as
a function `List Vec2 → List Vec2` (a `for` loop applying a pointwise update is
`List.map`).
-/

/-- The struct space_vec2 of main.c: a point in 2-d space, coordinates embedded
as exact rationals. -/
structure Vec2 where
  x : ℚ
  y : ℚ
deriving DecidableEq, Repr

attribute [ext] Vec2

/-- The macro SPACE_REFLECT_POINT(val, origin): val -= origin; val *= -1;
val += origin. -/
def space_reflect_point (val origin : ℚ) : ℚ := (val - origin) * (-1) + origin

/-- The function space_reflect_y: reflect every point of the array across the
vertical line x = origin (only the x coordinate changes). -/
def space_reflect_y (arr : List Vec2) (origin : ℚ) : List Vec2 :=
  arr.map (fun p => ⟨space_reflect_point p.x origin, p.y⟩)

/-- The function space_reflect_x: reflect every point of the array across the
horizontal line y = origin (only the y coordinate changes). -/
def space_reflect_x (arr : List Vec2) (origin : ℚ) : List Vec2 :=
  arr.map (fun p => ⟨p.x, space_reflect_point p.y origin⟩)

/-- The macro SPACE_ROTATE_POINT_ABOUT_ORIGIN with neg_mult = x (as used by
space_rotate_c): subtract the origin componentwise, swap x and y, negate the
new x, add the origin back. -/
def space_rotate_point_c (p origin : Vec2) : Vec2 :=
  ⟨(p.y - origin.y) * (-1) + origin.x, (p.x - origin.x) + origin.y⟩

/-- The macro SPACE_ROTATE_POINT_ABOUT_ORIGIN with neg_mult = y (as used by
space_rotate_cc): subtract the origin componentwise, swap x and y, negate the
new y, add the origin back. -/
def space_rotate_point_cc (p origin : Vec2) : Vec2 :=
  ⟨(p.y - origin.y) + origin.x, (p.x - origin.x) * (-1) + origin.y⟩

/-- The function space_rotate_c: rotate every point of the array 90 degrees
clockwise about the origin point. -/
def space_rotate_c (arr : List Vec2) (origin : Vec2) : List Vec2 :=
  arr.map (fun p => space_rotate_point_c p origin)

/-- The function space_rotate_cc: rotate every point of the array 90 degrees
counter-clockwise about the origin point. -/
def space_rotate_cc (arr : List Vec2) (origin : Vec2) : List Vec2 :=
  arr.map (fun p => space_rotate_point_cc p origin)

/-- The function space_scale: for every point, subtract the origin, multiply
both coordinates by the scale, add the origin back. -/
def space_scale (arr : List Vec2) (scale : ℚ) (origin : Vec2) : List Vec2 :=
  arr.map (fun p =>
    ⟨(p.x - origin.x) * scale + origin.x, (p.y - origin.y) * scale + origin.y⟩)

/-- The statically defined order-1 pseudo-Hilbert curve o1_hilbert of
hilbert_create. -/
def o1_hilbert : List Vec2 :=
  [⟨1/4, 3/4⟩, ⟨1/4, 1/4⟩, ⟨3/4, 1/4⟩, ⟨3/4, 3/4⟩]

/-- The scale_origins array of hilbert_create: where to scale the lower-order
curves into, one origin per quadrant. -/
def scale_origins : List Vec2 :=
  [⟨0, 1⟩, ⟨0, 0⟩, ⟨1, 0⟩, ⟨1, 1⟩]

/-- The center_point variable of hilbert_create. -/
def center_point : Vec2 := ⟨1/2, 1/2⟩

/-- One iteration of the quadrant loop of hilbert_create: copy the lower-order
curve, apply the pre-transform selected by the loop index i (the source tests
i == 0 and i == 4; the loop runs i = 0..3, so the i == 4 branch never fires),
then scale by 1/2 about scale_origins[i]. -/
def hilbert_quad (lo : List Vec2) (i : ℕ) : List Vec2 :=
  let work :=
    if i = 0 then
      space_rotate_c (space_reflect_y lo (1/2)) center_point
    else if i = 4 then
      space_rotate_cc (space_reflect_y lo (1/2)) center_point
    else lo
  space_scale work (1/2) (scale_origins.getD i ⟨0, 0⟩)

/-- The recursive body of hilbert_create for order ≥ 1 (called with a valid out
pointer).  Order 1 returns the static o1_hilbert; order n+2 concatenates the
four quadrant copies of the order-(n+1) curve in loop order i = 0,1,2,3.
For order 0 the C code does not return (it recurses with ever-decreasing
order); no claim evaluates the model there, and the value `[]` at 0 is an
arbitrary placeholder outside the function's domain. -/
def hilbert_create : ℕ → List Vec2
  | 0 => []
  | 1 => o1_hilbert
  | n + 2 =>
    let lo := hilbert_create (n + 1)
    hilbert_quad lo 0 ++ hilbert_quad lo 1 ++ hilbert_quad lo 2 ++ hilbert_quad lo 3

/-- The guard on line 132 of main.c, `if (out == NULL && order >= 1) goto fail;`:
true exactly when the fail path (return -1, *out = NULL) is taken, given whether
the out argument is NULL and the requested order. -/
def hilbert_invalid_guard (outIsNull : Bool) (order : ℤ) : Bool :=
  outIsNull && decide (1 ≤ order)

/-- The macro HILBERT_NUM_POINTS(order) = 1 << (order * 2), for the orders
(≥ 0 after cast) where the shift is defined. -/
def hilbert_num_points (order : ℕ) : ℕ := 1 <<< (order * 2)

/-- The static max_write = 65536 of write_hilbert_curve. -/
def max_write : ℕ := 65536

/-- The branchless chunk-size computation of write_hilbert_curve:
to_write = (write_left > max_write) * max_write
         + (write_left <= max_write) * write_left. -/
def chunk_size (write_left : ℕ) : ℕ :=
  (if max_write < write_left then 1 else 0) * max_write +
  (if write_left ≤ max_write then 1 else 0) * write_left

theorem chunk_size_pos (write_left : ℕ) (h : 0 < write_left) :
    0 < chunk_size write_left := by
  unfold chunk_size max_write
  split <;> split <;> omega

/-- The loop of write_hilbert_curve, modelled as the concatenation of the
payloads handed to fwrite: starting at index i = 0 and stepping by max_write,
each iteration writes chunk_size (len - i) elements from position i. The
remaining suffix `hc.drop i` determines the rest of the output, so the loop is
phrased as structural descent on that suffix. -/
def write_hilbert_curve (hc : List Vec2) : List Vec2 :=
  if _h : hc.length = 0 then []
  else
    let to_write := chunk_size hc.length
    hc.take to_write ++ write_hilbert_curve (hc.drop to_write)
termination_by hc.length
decreasing_by
  simp only [List.length_drop]
  have := chunk_size_pos hc.length (Nat.pos_of_ne_zero _h)
  omega

/- ### Pointwise characterizations of the four quadrant maps -/

/-- Pointwise form of the bottom-left quadrant map (i = 0): reflect about
x = 1/2, rotate clockwise about (1/2, 1/2), scale by 1/2 about (0, 1). -/
def quad0_point (p : Vec2) : Vec2 := ⟨(1 - p.y) / 2, 1 - p.x / 2⟩

/-- Pointwise form of the top-left quadrant map (i = 1): scale by 1/2 about
(0, 0). -/
def quad1_point (p : Vec2) : Vec2 := ⟨p.x / 2, p.y / 2⟩

/-- Pointwise form of the top-right quadrant map (i = 2): scale by 1/2 about
(1, 0). -/
def quad2_point (p : Vec2) : Vec2 := ⟨(p.x + 1) / 2, p.y / 2⟩

/-- Pointwise form of the bottom-right quadrant map as the code executes it
(i = 3, pre-transform branch dead): scale by 1/2 about (1, 1). -/
def quad3_point (p : Vec2) : Vec2 := ⟨(p.x + 1) / 2, (p.y + 1) / 2⟩

theorem hilbert_quad_zero (lo : List Vec2) :
    hilbert_quad lo 0 = lo.map quad0_point := by
  have ho : scale_origins.getD 0 ⟨0, 0⟩ = ⟨0, 1⟩ := rfl
  simp only [hilbert_quad, reduceIte, ho, space_scale, space_rotate_c,
    space_reflect_y, List.map_map, center_point]
  refine List.map_congr_left fun p _ => ?_
  simp only [Function.comp, space_rotate_point_c, space_reflect_point,
    quad0_point]
  ext <;> ring

theorem hilbert_quad_one (lo : List Vec2) :
    hilbert_quad lo 1 = lo.map quad1_point := by
  have ho : scale_origins.getD 1 ⟨0, 0⟩ = ⟨0, 0⟩ := rfl
  simp only [hilbert_quad, reduceIte, ho, space_scale]
  refine List.map_congr_left fun p _ => ?_
  simp only [quad1_point]
  ext <;> ring

theorem hilbert_quad_two (lo : List Vec2) :
    hilbert_quad lo 2 = lo.map quad2_point := by
  have ho : scale_origins.getD 2 ⟨0, 0⟩ = ⟨1, 0⟩ := rfl
  simp only [hilbert_quad, reduceIte, ho, space_scale]
  refine List.map_congr_left fun p _ => ?_
  simp only [quad2_point]
  ext <;> ring

theorem hilbert_quad_three (lo : List Vec2) :
    hilbert_quad lo 3 = lo.map quad3_point := by
  have ho : scale_origins.getD 3 ⟨0, 0⟩ = ⟨1, 1⟩ := rfl
  simp only [hilbert_quad, reduceIte, ho, space_scale]
  refine List.map_congr_left fun p _ => ?_
  simp only [quad3_point]
  ext <;> ring

/- ### Claims -/

/-- Claim C5: hilbert_create(1) returns exactly the four points (0.25,0.75),
(0.25,0.25), (0.75,0.25), (0.75,0.75), in that order. -/
theorem hilbert_create_one_exact :
    hilbert_create 1 = [⟨0.25, 0.75⟩, ⟨0.25, 0.25⟩, ⟨0.75, 0.25⟩, ⟨0.75, 0.75⟩] := by
  show o1_hilbert = _
  norm_num [o1_hilbert]

/-- Claim C2 evaluation at the failing inputs: the fail path of hilbert_create
is guarded by `out == NULL && order >= 1` (line 132), so a call with a valid
(non-NULL) out pointer and order 0 or -1 does not take the fail path: the
function proceeds to allocation and the recursive call, instead of failing with
the InvalidOrder signal before any allocation.  The guard fires instead on a
NULL out pointer with a valid order. -/
theorem hilbert_invalid_guard_not_taken :
    hilbert_invalid_guard false 0 = false ∧
    hilbert_invalid_guard false (-1) = false ∧
    hilbert_invalid_guard true 2 = true := by
  decide

/-- Claim C3 counterexample: the claim predicts that the clockwise rotation
negates the post-swap y (so (2,3) about (0,0) would map to (3,-2)) and that the
counter-clockwise rotation negates the post-swap x (so (2,3) would map to
(-3,2)); the code does the opposite on both. -/
theorem rotate_axes_swapped_counterexample :
    space_rotate_c [⟨2, 3⟩] ⟨0, 0⟩ = [⟨-3, 2⟩] ∧
    space_rotate_c [⟨2, 3⟩] ⟨0, 0⟩ ≠ [⟨3, -2⟩] ∧
    space_rotate_cc [⟨2, 3⟩] ⟨0, 0⟩ = [⟨3, -2⟩] ∧
    space_rotate_cc [⟨2, 3⟩] ⟨0, 0⟩ ≠ [⟨-3, 2⟩] := by
  norm_num [space_rotate_c, space_rotate_cc, space_rotate_point_c,
    space_rotate_point_cc]

/-- Claim C3 (amended): for every point sequence and origin, the clockwise
rotation maps each point p to origin + swap(p - origin) with the post-swap x
negated, the counter-clockwise rotation maps each point p to
origin + swap(p - origin) with the post-swap y negated, and both leave the
sequence length unchanged. -/
theorem rotate_pointwise_characterization (arr : List Vec2) (origin : Vec2) :
    space_rotate_c arr origin =
      arr.map (fun p => ⟨origin.x + -(p.y - origin.y), origin.y + (p.x - origin.x)⟩) ∧
    space_rotate_cc arr origin =
      arr.map (fun p => ⟨origin.x + (p.y - origin.y), origin.y + -(p.x - origin.x)⟩) ∧
    (space_rotate_c arr origin).length = arr.length ∧
    (space_rotate_cc arr origin).length = arr.length := by
  refine ⟨?_, ?_, by simp [space_rotate_c], by simp [space_rotate_cc]⟩
  · unfold space_rotate_c
    refine List.map_congr_left fun p _ => ?_
    simp only [space_rotate_point_c]
    ext <;> ring
  · unfold space_rotate_cc
    refine List.map_congr_left fun p _ => ?_
    simp only [space_rotate_point_cc]
    ext <;> ring

/-- Claim C8: applying space_reflect_y twice with the same axis returns every
point to its original coordinates, and a single application leaves every y
coordinate untouched. -/
theorem reflect_y_self_inverse (arr : List Vec2) (axis : ℚ) :
    space_reflect_y (space_reflect_y arr axis) axis = arr ∧
    (space_reflect_y arr axis).map Vec2.y = arr.map Vec2.y := by
  constructor
  · unfold space_reflect_y
    rw [List.map_map]
    conv_rhs => rw [← List.map_id arr]
    refine List.map_congr_left fun p _ => ?_
    simp only [Function.comp, space_reflect_point, id]
    ext <;> ring
  · unfold space_reflect_y
    rw [List.map_map]
    rfl

/-- Claim C9: applying the clockwise rotation and then the counter-clockwise
rotation about the same origin returns every point of the sequence to its
original coordinates. -/
theorem rotate_c_then_cc_identity (arr : List Vec2) (origin : Vec2) :
    space_rotate_cc (space_rotate_c arr origin) origin = arr := by
  unfold space_rotate_c space_rotate_cc
  rw [List.map_map]
  conv_rhs => rw [← List.map_id arr]
  refine List.map_congr_left fun p _ => ?_
  simp only [Function.comp, space_rotate_point_c, space_rotate_point_cc, id]
  ext <;> ring

/-- Claim C7: the chunked binary writer emits exactly the bytes of the input
points in original order — the chunked output equals the whole array written
unchunked — and each chunk has size min(remaining, 65536), as computed by the
branchless expression. -/
theorem write_chunked_equals_unchunked :
    (∀ hc : List Vec2, write_hilbert_curve hc = hc) ∧
    (∀ write_left : ℕ, chunk_size write_left = min write_left max_write) := by
  constructor
  · suffices h : ∀ n (hc : List Vec2), hc.length ≤ n → write_hilbert_curve hc = hc by
      exact fun hc => h hc.length hc le_rfl
    intro n
    induction n with
    | zero =>
      intro hc hlen
      have he : hc = [] := List.eq_nil_of_length_eq_zero (Nat.le_zero.mp hlen)
      subst he
      rw [write_hilbert_curve]
      simp
    | succ n ih =>
      intro hc hlen
      rw [write_hilbert_curve]
      split
      · next h0 => rw [List.eq_nil_of_length_eq_zero h0]
      · next h0 =>
        have hpos : 0 < chunk_size hc.length :=
          chunk_size_pos hc.length (Nat.pos_of_ne_zero h0)
        show hc.take (chunk_size hc.length) ++
          write_hilbert_curve (hc.drop (chunk_size hc.length)) = hc
        rw [ih (hc.drop (chunk_size hc.length)) (by simp only [List.length_drop]; omega)]
        exact List.take_append_drop _ hc
  · intro wl
    unfold chunk_size max_write
    split <;> split <;> omega

theorem hilbert_quad_length (lo : List Vec2) (i : ℕ) :
    (hilbert_quad lo i).length = lo.length := by
  unfold hilbert_quad
  by_cases h0 : i = 0 <;> by_cases h4 : i = 4 <;>
    simp [h0, h4, space_scale, space_rotate_c, space_rotate_cc, space_reflect_y]

theorem hilbert_create_succ_succ (m : ℕ) :
    hilbert_create (m + 2) =
      hilbert_quad (hilbert_create (m + 1)) 0 ++ hilbert_quad (hilbert_create (m + 1)) 1 ++
      hilbert_quad (hilbert_create (m + 1)) 2 ++ hilbert_quad (hilbert_create (m + 1)) 3 := rfl

theorem hilbert_create_length_aux (n : ℕ) :
    (hilbert_create (n + 1)).length = 4 ^ (n + 1) := by
  induction n with
  | zero => rfl
  | succ m ih =>
    rw [hilbert_create_succ_succ]
    simp only [List.length_append, hilbert_quad_length, ih]
    ring

/-- Claim C4: for every order ≥ 1, the sequence returned by
hilbert_create(order) has length exactly 4^order. -/
theorem hilbert_create_length (order : ℕ) (h : 1 ≤ order) :
    (hilbert_create order).length = 4 ^ order := by
  obtain ⟨n, rfl⟩ : ∃ n, order = n + 1 := ⟨order - 1, by omega⟩
  exact hilbert_create_length_aux n

/-- Witness for claim C4 at order 2. -/
theorem hilbert_create_length_witness :
    1 ≤ 2 ∧ (hilbert_create 2).length = 4 ^ 2 :=
  ⟨by decide, hilbert_create_length 2 (by decide)⟩

/-- Claim C1 evaluation at order 2: block 3 (entries 12..15) of
hilbert_create 2 is the order-1 curve merely scaled by 1/2 about (1,1) — the
i == 4 test in the quadrant loop never fires, so the bottom-right block never
receives the reflect + rotate_cc pre-transform — and it differs from the value
the claim prescribes for block 3.  Blocks 0, 1 and 2 are exactly as the claim
states. -/
theorem hilbert_block3_missing_pretransform :
    (hilbert_create 2).drop 12 = space_scale (hilbert_create 1) (1/2) ⟨1, 1⟩ ∧
    (hilbert_create 2).drop 12 ≠
      space_scale (space_rotate_cc (space_reflect_y (hilbert_create 1) (1/2)) center_point)
        (1/2) ⟨1, 1⟩ ∧
    (hilbert_create 2).take 4 =
      space_scale (space_rotate_c (space_reflect_y (hilbert_create 1) (1/2)) center_point)
        (1/2) ⟨0, 1⟩ ∧
    ((hilbert_create 2).drop 4).take 4 = space_scale (hilbert_create 1) (1/2) ⟨0, 0⟩ ∧
    ((hilbert_create 2).drop 8).take 4 = space_scale (hilbert_create 1) (1/2) ⟨1, 0⟩ := by
  norm_num [hilbert_create, hilbert_quad, o1_hilbert, space_scale, space_rotate_c,
    space_rotate_cc, space_reflect_y, space_rotate_point_c, space_rotate_point_cc,
    space_reflect_point, scale_origins, center_point]

/- ### Range containment and distinctness invariants -/

/-- A point lies in the closed unit square. -/
def in_unit (p : Vec2) : Prop := 0 ≤ p.x ∧ p.x ≤ 1 ∧ 0 ≤ p.y ∧ p.y ≤ 1

/-- A point lies in the open unit square. -/
def in_open (p : Vec2) : Prop := 0 < p.x ∧ p.x < 1 ∧ 0 < p.y ∧ p.y < 1

theorem quad0_point_in_unit (p : Vec2) (hp : in_unit p) : in_unit (quad0_point p) := by
  obtain ⟨h1, h2, h3, h4⟩ := hp
  refine ⟨?_, ?_, ?_, ?_⟩ <;> simp only [quad0_point] <;> linarith

theorem quad1_point_in_unit (p : Vec2) (hp : in_unit p) : in_unit (quad1_point p) := by
  obtain ⟨h1, h2, h3, h4⟩ := hp
  refine ⟨?_, ?_, ?_, ?_⟩ <;> simp only [quad1_point] <;> linarith

theorem quad2_point_in_unit (p : Vec2) (hp : in_unit p) : in_unit (quad2_point p) := by
  obtain ⟨h1, h2, h3, h4⟩ := hp
  refine ⟨?_, ?_, ?_, ?_⟩ <;> simp only [quad2_point] <;> linarith

theorem quad3_point_in_unit (p : Vec2) (hp : in_unit p) : in_unit (quad3_point p) := by
  obtain ⟨h1, h2, h3, h4⟩ := hp
  refine ⟨?_, ?_, ?_, ?_⟩ <;> simp only [quad3_point] <;> linarith

theorem hilbert_create_in_unit_aux (n : ℕ) :
    ∀ p ∈ hilbert_create (n + 1), in_unit p := by
  induction n with
  | zero =>
    intro p hp
    fin_cases hp <;> exact ⟨by norm_num, by norm_num, by norm_num, by norm_num⟩
  | succ m ih =>
    intro p hp
    rw [hilbert_create_succ_succ, hilbert_quad_zero, hilbert_quad_one,
      hilbert_quad_two, hilbert_quad_three] at hp
    simp only [List.mem_append, List.mem_map] at hp
    rcases hp with ((⟨q, hq, rfl⟩ | ⟨q, hq, rfl⟩) | ⟨q, hq, rfl⟩) | ⟨q, hq, rfl⟩
    · exact quad0_point_in_unit q (ih q hq)
    · exact quad1_point_in_unit q (ih q hq)
    · exact quad2_point_in_unit q (ih q hq)
    · exact quad3_point_in_unit q (ih q hq)

/-- Claim C6: for every order ≥ 1, every coordinate of every point of
hilbert_create(order) lies in the closed interval [0, 1]. -/
theorem hilbert_create_in_unit (order : ℕ) (h : 1 ≤ order) :
    ∀ p ∈ hilbert_create order, 0 ≤ p.x ∧ p.x ≤ 1 ∧ 0 ≤ p.y ∧ p.y ≤ 1 := by
  obtain ⟨n, rfl⟩ : ∃ n, order = n + 1 := ⟨order - 1, by omega⟩
  exact fun p hp => hilbert_create_in_unit_aux n p hp

/-- Witness for claim C6: the first point of the order-1 curve. -/
theorem hilbert_create_in_unit_witness :
    1 ≤ 1 ∧ (⟨1/4, 3/4⟩ : Vec2) ∈ hilbert_create 1 ∧
      (0 ≤ (⟨1/4, 3/4⟩ : Vec2).x ∧ (⟨1/4, 3/4⟩ : Vec2).x ≤ 1 ∧
        0 ≤ (⟨1/4, 3/4⟩ : Vec2).y ∧ (⟨1/4, 3/4⟩ : Vec2).y ≤ 1) :=
  ⟨by decide, by simp [hilbert_create, o1_hilbert],
    hilbert_create_in_unit 1 (by decide) ⟨1/4, 3/4⟩ (by simp [hilbert_create, o1_hilbert])⟩

theorem quad0_point_injective : Function.Injective quad0_point := by
  intro p q h
  have hx := congrArg Vec2.x h
  have hy := congrArg Vec2.y h
  simp only [quad0_point] at hx hy
  ext <;> linarith

theorem quad1_point_injective : Function.Injective quad1_point := by
  intro p q h
  have hx := congrArg Vec2.x h
  have hy := congrArg Vec2.y h
  simp only [quad1_point] at hx hy
  ext <;> linarith

theorem quad2_point_injective : Function.Injective quad2_point := by
  intro p q h
  have hx := congrArg Vec2.x h
  have hy := congrArg Vec2.y h
  simp only [quad2_point] at hx hy
  ext <;> linarith

theorem quad3_point_injective : Function.Injective quad3_point := by
  intro p q h
  have hx := congrArg Vec2.x h
  have hy := congrArg Vec2.y h
  simp only [quad3_point] at hx hy
  ext <;> linarith

theorem quad0_point_open (p : Vec2) (hp : in_open p) :
    in_open (quad0_point p) ∧ (quad0_point p).x < 1/2 ∧ 1/2 < (quad0_point p).y := by
  obtain ⟨h1, h2, h3, h4⟩ := hp
  refine ⟨⟨?_, ?_, ?_, ?_⟩, ?_, ?_⟩ <;> simp only [quad0_point] <;> linarith

theorem quad1_point_open (p : Vec2) (hp : in_open p) :
    in_open (quad1_point p) ∧ (quad1_point p).x < 1/2 ∧ (quad1_point p).y < 1/2 := by
  obtain ⟨h1, h2, h3, h4⟩ := hp
  refine ⟨⟨?_, ?_, ?_, ?_⟩, ?_, ?_⟩ <;> simp only [quad1_point] <;> linarith

theorem quad2_point_open (p : Vec2) (hp : in_open p) :
    in_open (quad2_point p) ∧ 1/2 < (quad2_point p).x ∧ (quad2_point p).y < 1/2 := by
  obtain ⟨h1, h2, h3, h4⟩ := hp
  refine ⟨⟨?_, ?_, ?_, ?_⟩, ?_, ?_⟩ <;> simp only [quad2_point] <;> linarith

theorem quad3_point_open (p : Vec2) (hp : in_open p) :
    in_open (quad3_point p) ∧ 1/2 < (quad3_point p).x ∧ 1/2 < (quad3_point p).y := by
  obtain ⟨h1, h2, h3, h4⟩ := hp
  refine ⟨⟨?_, ?_, ?_, ?_⟩, ?_, ?_⟩ <;> simp only [quad3_point] <;> linarith

theorem hilbert_create_nodup_aux (n : ℕ) :
    (hilbert_create (n + 1)).Nodup ∧ ∀ p ∈ hilbert_create (n + 1), in_open p := by
  induction n with
  | zero =>
    refine ⟨by norm_num [hilbert_create, o1_hilbert], ?_⟩
    intro p hp
    fin_cases hp <;> exact ⟨by norm_num, by norm_num, by norm_num, by norm_num⟩
  | succ m ih =>
    obtain ⟨ihn, iho⟩ := ih
    rw [hilbert_create_succ_succ, hilbert_quad_zero, hilbert_quad_one,
      hilbert_quad_two, hilbert_quad_three]
    set lo := hilbert_create (m + 1)
    have mem0 : ∀ a ∈ lo.map quad0_point, a.x < 1/2 ∧ 1/2 < a.y := by
      intro a ha
      obtain ⟨q, hq, rfl⟩ := List.mem_map.1 ha
      exact (quad0_point_open q (iho q hq)).2
    have mem1 : ∀ a ∈ lo.map quad1_point, a.x < 1/2 ∧ a.y < 1/2 := by
      intro a ha
      obtain ⟨q, hq, rfl⟩ := List.mem_map.1 ha
      exact (quad1_point_open q (iho q hq)).2
    have mem2 : ∀ a ∈ lo.map quad2_point, 1/2 < a.x ∧ a.y < 1/2 := by
      intro a ha
      obtain ⟨q, hq, rfl⟩ := List.mem_map.1 ha
      exact (quad2_point_open q (iho q hq)).2
    have mem3 : ∀ a ∈ lo.map quad3_point, 1/2 < a.x ∧ 1/2 < a.y := by
      intro a ha
      obtain ⟨q, hq, rfl⟩ := List.mem_map.1 ha
      exact (quad3_point_open q (iho q hq)).2
    constructor
    · have d01 : (lo.map quad0_point).Disjoint (lo.map quad1_point) := by
        intro a ha hb
        have u := (mem0 a ha).2
        have v := (mem1 a hb).2
        linarith
      have d02 : (lo.map quad0_point).Disjoint (lo.map quad2_point) := by
        intro a ha hb
        have u := (mem0 a ha).1
        have v := (mem2 a hb).1
        linarith
      have d03 : (lo.map quad0_point).Disjoint (lo.map quad3_point) := by
        intro a ha hb
        have u := (mem0 a ha).1
        have v := (mem3 a hb).1
        linarith
      have d12 : (lo.map quad1_point).Disjoint (lo.map quad2_point) := by
        intro a ha hb
        have u := (mem1 a ha).1
        have v := (mem2 a hb).1
        linarith
      have d13 : (lo.map quad1_point).Disjoint (lo.map quad3_point) := by
        intro a ha hb
        have u := (mem1 a ha).1
        have v := (mem3 a hb).1
        linarith
      have d23 : (lo.map quad2_point).Disjoint (lo.map quad3_point) := by
        intro a ha hb
        have u := (mem2 a ha).2
        have v := (mem3 a hb).2
        linarith
      have n0 : (lo.map quad0_point).Nodup := ihn.map quad0_point_injective
      have n1 : (lo.map quad1_point).Nodup := ihn.map quad1_point_injective
      have n2 : (lo.map quad2_point).Nodup := ihn.map quad2_point_injective
      have n3 : (lo.map quad3_point).Nodup := ihn.map quad3_point_injective
      simp only [List.nodup_append, List.disjoint_append_left]
      exact ⟨⟨⟨n0, n1, d01⟩, n2, d02, d12⟩, n3, ⟨d03, d13⟩, d23⟩
    · intro p hp
      simp only [List.mem_append, List.mem_map] at hp
      rcases hp with ((⟨q, hq, rfl⟩ | ⟨q, hq, rfl⟩) | ⟨q, hq, rfl⟩) | ⟨q, hq, rfl⟩
      · exact (quad0_point_open q (iho q hq)).1
      · exact (quad1_point_open q (iho q hq)).1
      · exact (quad2_point_open q (iho q hq)).1
      · exact (quad3_point_open q (iho q hq)).1

/-- Claim C10: for every order ≥ 1, under exact arithmetic the points returned
by hilbert_create(order) are pairwise distinct (the sequence has no
duplicate). -/
theorem hilbert_create_pairwise_distinct (order : ℕ) (h : 1 ≤ order) :
    (hilbert_create order).Nodup := by
  obtain ⟨n, rfl⟩ : ∃ n, order = n + 1 := ⟨order - 1, by omega⟩
  exact (hilbert_create_nodup_aux n).1

/-- Witness for claim C10 at order 2. -/
theorem hilbert_create_pairwise_distinct_witness :
    1 ≤ 2 ∧ (hilbert_create 2).Nodup :=
  ⟨by decide, hilbert_create_pairwise_distinct 2 (by decide)⟩
